import Mathlib

/-
Verification of the dynamic-array container in src/vector/vector.h and
src/vector/raw_memory.h (a `std::vector`-style container `Vector<T>` built on
an untyped buffer `RawMemory<T>`).

Embedding: a `Vector<T>` object is observed through its live elements (the
constructed objects in slots `[0, size_)` of `data_`) and its capacity
(`data_.Capacity()`).  We model that observable state as a list `elems`
(so `Size() = elems.length`) together with `cap : Nat`.  Operations are
translated one by one from vector.h; positions (`const_iterator pos`) are
modelled by their offset `distance = pos - cbegin()`, exactly the quantity
the source computes via `std::distance`.  For the exception-safety analysis
of `EmplaceWithReallocation` we additionally model buffers at the slot
level, a slot being `Option α` (`some x` = a constructed element with value
`x`, `none` = raw storage), and element constructors as fallible functions
returning `Option α` (`none` = the constructor throws).
-/

namespace CppVector

/-- Observable state of `Vector<T>` (vector.h lines 62-64): `elems` lists the
constructed elements in slots `[0, size_)` of the `RawMemory` buffer in order,
and `cap` is `data_.Capacity()`. -/
structure Vector (α : Type) where
  elems : List α
  cap : Nat
deriving DecidableEq, Repr

variable {α : Type}

/-- Model of `Size()` (vector.h line 50). -/
def Size (v : Vector α) : Nat := v.elems.length

/-- Model of `Capacity()` (vector.h line 51). -/
def Capacity (v : Vector α) : Nat := v.cap

/-- Model of the default constructor `Vector() = default` (vector.h line 14):
`data_` is a default `RawMemory` (null buffer, capacity 0) and `size_ = 0`. -/
def emptyVector (α : Type) : Vector α := ⟨[], 0⟩

/-- Model of the sized constructor `Vector(size_t size)` (vector.h lines
100-105): allocates capacity `size` and value-constructs `size` elements;
`x0` stands for the value produced by `T()`. -/
def sized (x0 : α) (n : Nat) : Vector α := ⟨List.replicate n x0, n⟩

/-- Model of the copy constructor `Vector(const Vector&)` (vector.h lines
107-113): allocates capacity `other.size_` and copies the `other.size_`
elements in order. -/
def copyOf (other : Vector α) : Vector α := ⟨other.elems, other.elems.length⟩

/-- Model of the move constructor `Vector(Vector&&)` (vector.h lines 93-97):
`data_ = std::move(other.data_)` transfers buffer and capacity, and
`size_ = std::exchange(other.size_, 0)` transfers the size; `other` is left
with a null buffer, capacity 0 and size 0.  Result: (new vector, source
after the move). -/
def moveFrom (other : Vector α) : Vector α × Vector α :=
  (⟨other.elems, other.cap⟩, ⟨[], 0⟩)

/-- Model of move assignment `operator=(Vector&&)` (vector.h lines 134-139):
identical transfer; the destination's previous observable state is replaced
wholesale.  Result: (destination after, source after). -/
def moveAssign (_dest rhs : Vector α) : Vector α × Vector α :=
  (⟨rhs.elems, rhs.cap⟩, ⟨[], 0⟩)

/-- Model of `Swap` (vector.h lines 141-145): swaps `data_` (buffer and
capacity, raw_memory.h lines 78-82) and `size_`, i.e. the complete
observable states.  Result: (first after, second after). -/
def Swap (a b : Vector α) : Vector α × Vector α := (b, a)

/-- Model of copy assignment `operator=(const Vector&)` (vector.h lines
115-132).  When `rhs.size_ > data_.Capacity()`: copy-and-swap through a
temporary `Vector rhs_copy(rhs)` (so the result is exactly `copyOf rhs`).
Otherwise, in place: `std::copy_n` overwrites the first `min(size_, rhs.size_)`
live slots with `rhs`'s values, then either the excess tail `[rhs.size_, size_)`
is destroyed or the missing tail `[size_, rhs.size_)` is copy-constructed, and
`size_ = rhs.size_` last; the buffer (hence capacity) is untouched.
Result: (destination after, rhs after — the source is only read). -/
def copyAssign (a rhs : Vector α) : Vector α × Vector α :=
  if rhs.elems.length > a.cap then
    (copyOf rhs, rhs)
  else
    let common := min a.elems.length rhs.elems.length
    let overwritten := rhs.elems.take common ++ a.elems.drop common
    let final :=
      if rhs.elems.length < a.elems.length then
        overwritten.take rhs.elems.length
      else
        overwritten ++ rhs.elems.drop a.elems.length
    (⟨final, a.cap⟩, rhs)

/-- Model of `Reserve` (vector.h lines 204-213): a no-op when
`new_capacity ≤ data_.Capacity()`; otherwise a fresh buffer of exactly
`new_capacity` slots is filled with the existing elements in order (move or
copy, value-preserving either way), the originals are destroyed and the
buffers are swapped. -/
def Reserve (v : Vector α) (new_capacity : Nat) : Vector α :=
  if new_capacity ≤ v.cap then v
  else ⟨v.elems, new_capacity⟩

/-- Model of `Resize` (vector.h lines 147-157): no-op when `new_size = size_`;
shrink destroys the tail `[new_size, size_)`; grow calls `Reserve new_size`
then value-constructs `new_size - size_` elements (`x0` stands for `T()`). -/
def Resize (v : Vector α) (x0 : α) (new_size : Nat) : Vector α :=
  if v.elems.length = new_size then v
  else if new_size < v.elems.length then
    ⟨v.elems.take new_size, v.cap⟩
  else
    let r := Reserve v new_size
    ⟨r.elems ++ List.replicate (new_size - v.elems.length) x0, r.cap⟩

/-- Model of `PopBack` (vector.h lines 198-202): destroys the element in the
last live slot and decrements `size_`. -/
def PopBack (v : Vector α) : Vector α := ⟨v.elems.dropLast, v.cap⟩

/-- Capacity chosen by `EmplaceWithReallocation` (vector.h line 274):
`size_ == 0 ? 1 : size_ * 2`. -/
def newCapOnRealloc (size : Nat) : Nat := if size = 0 then 1 else size * 2

/-- Model of `EmplaceWithReallocation` on the success path (vector.h lines
270-293): the new buffer of `newCapOnRealloc size_` slots receives the new
element `x` at slot `distance`, the elements `[0, distance)` before it and
`[distance, size_)` after it (shifted one slot), then buffers are swapped;
the live sequence becomes `take d ++ x :: drop d`.  (`Emplace` then does
`++size_`, which is reflected by the longer list.) -/
def EmplaceWithReallocation (v : Vector α) (d : Nat) (x : α) : Vector α :=
  ⟨v.elems.take d ++ x :: v.elems.drop d, newCapOnRealloc v.elems.length⟩

/-- Model of `EmplaceWithoutReallocation` (vector.h lines 295-307): when `pos`
is the end, the new element is constructed in the next free slot; otherwise a
temporary `tmp` is built, the last element is moved into the next free slot,
`[distance, size_-1)` is shifted one slot toward the end by
`std::move_backward`, and `tmp` is move-assigned into slot `distance` — the
live sequence becomes `take d ++ x :: drop d` in both cases; the buffer
(capacity) is untouched. -/
def EmplaceWithoutReallocation (v : Vector α) (d : Nat) (x : α) : Vector α :=
  if d = v.elems.length then
    ⟨v.elems ++ [x], v.cap⟩
  else
    ⟨v.elems.take d ++ x :: v.elems.drop d, v.cap⟩

/-- Model of `Emplace` (vector.h lines 171-182): `distance` is
`std::distance(cbegin(), pos)`, here the argument `d`; reallocates exactly
when `size_ == Capacity()`; returns `begin() + distance`, modelled as the
offset `d`. -/
def Emplace (v : Vector α) (d : Nat) (x : α) : Vector α × Nat :=
  if v.elems.length = v.cap then
    (EmplaceWithReallocation v d x, d)
  else
    (EmplaceWithoutReallocation v d x, d)

/-- Model of `Insert` (vector.h lines 192-196): forwards to `Emplace`. -/
def Insert (v : Vector α) (d : Nat) (x : α) : Vector α × Nat := Emplace v d x

/-- Model of `EmplaceBack` (vector.h lines 165-169): `Emplace(cend(), ...)`,
i.e. at offset `size_`. -/
def EmplaceBack (v : Vector α) (x : α) : Vector α :=
  (Emplace v v.elems.length x).1

/-- Model of `PushBack` (vector.h lines 159-163): forwards to `EmplaceBack`. -/
def PushBack (v : Vector α) (x : α) : Vector α := EmplaceBack v x

/-- Model of `Erase` (vector.h lines 184-190): `std::move(begin()+d+1, end(),
begin()+d)` shifts the tail one slot toward the front (value-wise the live
region becomes `take d ++ drop (d+1)` followed by the moved-from last slot),
then `PopBack()` destroys that last slot; net live sequence `eraseIdx d`.
Returns `begin() + distance`, modelled as the offset `d`. -/
def Erase (v : Vector α) (d : Nat) : Vector α × Nat :=
  (⟨v.elems.eraseIdx d, v.cap⟩, d)

/-- Model of `operator[]` (vector.h lines 220-224) as an optional read: `some`
of the element in slot `i` when `i < size_` (the in-contract case). -/
def opIndex (v : Vector α) (i : Nat) : Option α := v.elems.get? i

/-- Container invariant (spec §3): at most `Capacity()` live elements, which
occupy exactly the first `Size()` slots (the latter holds by construction in
this embedding, `elems` being the live prefix). -/
def Inv (v : Vector α) : Prop := v.elems.length ≤ v.cap

instance (v : Vector α) : Decidable (Inv v) := by
  unfold Inv; infer_instance

/-- Folding a sequence of `PushBack` calls over a starting vector. -/
def pushAll (v : Vector α) (xs : List α) : Vector α := xs.foldl PushBack v

/-
Slot-level model with throwing element constructors, for the exception-safety
analysis of `EmplaceWithReallocation` (vector.h lines 270-293).  A buffer is a
list of slots; a slot is `some x` when a constructed element with value `x`
occupies it and `none` when it is raw storage.  A fallible element constructor
is a function into `Option`: `none` means it throws.
-/

/-- Model of `std::destroy_n(buf + start, n)`: the `n` slots starting at
`start` become raw storage, one destructor call at a time. -/
def destroyN (buf : List (Option α)) (start n : Nat) : List (Option α) :=
  match n with
  | 0 => buf
  | m + 1 => destroyN (buf.set start none) (start + 1) m

/-- Constructs the values `xs` into consecutive slots of `buf` starting at
slot `start` (the successful completion of `uninitialized_copy_n` /
`uninitialized_move_n` into that range). -/
def placeRange (buf : List (Option α)) (start : Nat) (xs : List α) : List (Option α) :=
  match xs with
  | [] => buf
  | x :: rest => placeRange (buf.set start (some x)) (start + 1) rest

/-- Fallible transfer of a source range, modelling `UninitializedMoveOrCopy`
(vector.h lines 261-268): each element goes through the constructor `tr`
(`fun x => some x` for the non-throwing-move branch; a copy constructor, which
may throw, for the copy branch).  Returns `none` as soon as one element
constructor throws — in that case `uninitialized_copy_n` has already destroyed
the elements it had constructed, so the destination range is left raw. -/
def transferAll (tr : α → Option α) : List α → Option (List α)
  | [] => some []
  | x :: rest =>
    match tr x with
    | none => none
    | some y =>
      match transferAll tr rest with
      | none => none
      | some ys => some (y :: ys)

/-- Model of a call to `Emplace` on the reallocation path (`size_ ==
Capacity()`, vector.h lines 171-182 and 270-293) with throwing constructors.
`mk` is the construction of the new element from `args` (`none` = it throws);
`tr` is the per-element transfer constructor.  Following the source line by
line: allocate `new_data` (all slots raw); construct the new element at slot
`d`; transfer the elements before `pos` into slots `[0, d)` — on a throw the
catch destroys the new element at slot `d` and rethrows; transfer the elements
from `pos` on into slots `[d+1, ...)` — on a throw the catch destroys slots
`[0, d+1)` and rethrows; on success swap buffers, destroy the originals and
increment `size_`.  Result: (the vector observable after the call returns or
propagates, `some d` on success / `none` when the call threw, the slots of the
buffer that is deallocated on exit — the abandoned `new_data` on a throw, the
old buffer on success).  `data_` and `size_` are mutated only on the success
path, so on every throwing path the vector component is `v` itself. -/
def EmplaceWithReallocationRun (v : Vector α) (d : Nat) (mk : Option α)
    (tr : α → Option α) : Vector α × Option Nat × List (Option α) :=
  let buf0 : List (Option α) := List.replicate (newCapOnRealloc v.elems.length) none
  match mk with
  | none => (v, none, buf0)
  | some x =>
    let buf1 := buf0.set d (some x)
    match transferAll tr (v.elems.take d) with
    | none => (v, none, destroyN buf1 d 1)
    | some front =>
      let buf2 := placeRange buf1 0 front
      match transferAll tr (v.elems.drop d) with
      | none => (v, none, destroyN buf2 0 (d + 1))
      | some back =>
        let oldBuf := v.elems.map some ++ List.replicate (v.cap - v.elems.length) none
        (⟨front ++ x :: back, newCapOnRealloc v.elems.length⟩, some d,
         destroyN oldBuf 0 v.elems.length)

/-
Shared lemmas.
-/

/-- The element sequence after `Emplace v d x` is `v`'s sequence with `x`
inserted at offset `d` (both the reallocating and the in-place path). -/
theorem emplace_elems (v : Vector α) (d : Nat) (x : α) :
    (Emplace v d x).1.elems = v.elems.take d ++ x :: v.elems.drop d := by
  unfold Emplace EmplaceWithReallocation EmplaceWithoutReallocation
  by_cases h1 : v.elems.length = v.cap <;> simp only [h1, if_true, if_false, reduceIte]
  by_cases h2 : d = v.elems.length <;> simp [h2]

/-- `PushBack` appends the new value to the element sequence. -/
theorem pushBack_elems (v : Vector α) (x : α) :
    (PushBack v x).elems = v.elems ++ [x] := by
  unfold PushBack EmplaceBack
  rw [emplace_elems]
  simp

/-- A sequence of `PushBack` calls appends the pushed values in order. -/
theorem pushAll_elems (v : Vector α) (xs : List α) :
    (pushAll v xs).elems = v.elems ++ xs := by
  induction xs generalizing v with
  | nil => simp [pushAll]
  | cons x rest ih =>
    show (pushAll (PushBack v x) rest).elems = _
    rw [ih, pushBack_elems]
    simp

/-
Claim theorems.
-/

/-- C1: for every sequence of values pushed with `PushBack` into a
default-constructed vector, the final `Size()` equals the number of
`PushBack` calls, and for every index `i` less than that size,
`operator[](i)` returns the `i`-th pushed value. -/
theorem claim1_pushBack_sequence (xs : List α) :
    Size (pushAll (emptyVector α) xs) = xs.length ∧
    ∀ i, i < xs.length → opIndex (pushAll (emptyVector α) xs) i = xs.get? i := by
  have h := pushAll_elems (emptyVector α) xs
  refine ⟨?_, fun i _ => ?_⟩
  · rw [Size, h]; simp [emptyVector]
  · rw [opIndex, h]; simp [emptyVector]

/-- Witness for C1 at the pushed sequence `[5, 7, 9]`. -/
theorem claim1_pushBack_sequence_witness :
    Size (pushAll (emptyVector Int) [5, 7, 9]) = 3 ∧
    opIndex (pushAll (emptyVector Int) [5, 7, 9]) 1 = some 7 := by
  have h := claim1_pushBack_sequence (α := Int) [5, 7, 9]
  exact ⟨h.1, by rw [h.2 1 (by decide)]; decide⟩

/-- Capacity produced by a reallocation-triggering `Emplace`. -/
theorem emplace_cap_full (v : Vector α) (d : Nat) (x : α)
    (h : v.elems.length = v.cap) :
    ((Emplace v d x).1).cap = max 1 (2 * v.cap) := by
  unfold Emplace EmplaceWithReallocation newCapOnRealloc
  simp only [h, if_true, reduceIte]
  split <;> omega

/-- C3: for every vector with `Size() == Capacity()`, a successful insertion
through `Emplace`, `Insert`, `PushBack` or `EmplaceBack` results in
`Capacity() == max(1, 2 × old capacity)` (in this embedding every insertion
succeeds, matching the claim's restriction to successful calls). -/
theorem claim3_growth_policy (v : Vector α) (d : Nat) (x : α)
    (h : Size v = Capacity v) :
    Capacity (Emplace v d x).1 = max 1 (2 * Capacity v) ∧
    Capacity (Insert v d x).1 = max 1 (2 * Capacity v) ∧
    Capacity (PushBack v x) = max 1 (2 * Capacity v) ∧
    Capacity (EmplaceBack v x) = max 1 (2 * Capacity v) := by
  have hc : ∀ k, ((Emplace v k x).1).cap = max 1 (2 * v.cap) :=
    fun k => emplace_cap_full v k x h
  exact ⟨hc d, hc d, hc v.elems.length, hc v.elems.length⟩

/-- Witness for C3 at a full vector of size 1 and at the empty vector. -/
theorem claim3_growth_policy_witness :
    Capacity (PushBack (⟨[4], 1⟩ : Vector Int) 9) = 2 ∧
    Capacity (PushBack (emptyVector Int) 9) = 1 := by
  have h1 := claim3_growth_policy (⟨[4], 1⟩ : Vector Int) 0 9 (by decide)
  have h2 := claim3_growth_policy (emptyVector Int) 0 9 (by decide)
  exact ⟨h1.2.2.1, h2.2.2.1⟩

/-- C4: moving from a vector `a` (move construction or move assignment)
leaves `a` empty with size 0 and capacity 0, never fails (both operations are
`noexcept` and modelled as total functions), and the destination holds `a`'s
prior elements in order with `a`'s prior size and capacity. -/
theorem claim4_move_semantics (a b : Vector α) :
    Size (moveFrom a).2 = 0 ∧ Capacity (moveFrom a).2 = 0 ∧
    (moveFrom a).1.elems = a.elems ∧ Size (moveFrom a).1 = Size a ∧
    Capacity (moveFrom a).1 = Capacity a ∧
    Size (moveAssign b a).2 = 0 ∧ Capacity (moveAssign b a).2 = 0 ∧
    (moveAssign b a).1.elems = a.elems ∧ Size (moveAssign b a).1 = Size a ∧
    Capacity (moveAssign b a).1 = Capacity a := by
  simp [moveFrom, moveAssign, Size, Capacity]

/-- C6: `Reserve` never changes the size or the element sequence; with
`n ≤ Capacity()` it is a complete no-op, and otherwise the capacity
afterwards is at least `n`. -/
theorem claim6_reserve (v : Vector α) (n : Nat) :
    Size (Reserve v n) = Size v ∧
    (Reserve v n).elems = v.elems ∧
    (n ≤ Capacity v → Reserve v n = v) ∧
    (Capacity v < n → n ≤ Capacity (Reserve v n)) := by
  unfold Reserve Size Capacity
  by_cases h : n ≤ v.cap <;> simp [h]

/-- Witness for C6 in the no-op regime and in the growing regime. -/
theorem claim6_reserve_witness :
    Reserve (⟨[1, 2], 3⟩ : Vector Int) 2 = ⟨[1, 2], 3⟩ ∧
    5 ≤ Capacity (Reserve (⟨[1, 2], 3⟩ : Vector Int) 5) := by
  have h := claim6_reserve (⟨[1, 2], 3⟩ : Vector Int) 2
  have h5 := claim6_reserve (⟨[1, 2], 3⟩ : Vector Int) 5
  exact ⟨h.2.2.1 (by decide), h5.2.2.2 (by decide)⟩

/-- Extensionality for observable vector states. -/
theorem vecExt {v w : Vector α} (h1 : v.elems = w.elems) (h2 : v.cap = w.cap) :
    v = w := by
  cases v; cases w; simp_all

/-- Copy assignment always ends with the destination holding `rhs`'s element
sequence (both the copy-and-swap branch and the in-place branch). -/
theorem copyAssign_elems (a rhs : Vector α) :
    (copyAssign a rhs).1.elems = rhs.elems := by
  unfold copyAssign copyOf
  by_cases h : rhs.elems.length > a.cap
  · simp [h]
  · simp only [h, reduceIte]
    by_cases h2 : rhs.elems.length < a.elems.length
    · have hmin : min a.elems.length rhs.elems.length = rhs.elems.length := by omega
      simp only [h2, reduceIte, hmin, List.take_length]
      exact List.take_left' rfl
    · have hmin : min a.elems.length rhs.elems.length = a.elems.length := by omega
      simp only [h2, reduceIte, hmin, List.drop_length, List.append_nil]
      exact List.take_append_drop _ _

/-- C5: after `a = rhs`, `a` has `rhs`'s size and elements and `rhs` is only
read; when `rhs`'s size exceeds `a`'s capacity the result is the full
temporary copy that was swapped in (`copyOf rhs`), otherwise the assignment
is in place and keeps `a`'s buffer (capacity unchanged); self-assignment is a
no-op. -/
theorem claim5_copy_assignment (a rhs : Vector α) :
    Size (copyAssign a rhs).1 = Size rhs ∧
    (copyAssign a rhs).1.elems = rhs.elems ∧
    (copyAssign a rhs).2 = rhs ∧
    (Capacity a < Size rhs → (copyAssign a rhs).1 = copyOf rhs) ∧
    (Size rhs ≤ Capacity a → Capacity (copyAssign a rhs).1 = Capacity a) ∧
    (Inv a → (copyAssign a a).1 = a) := by
  have he := copyAssign_elems a rhs
  refine ⟨by simp [Size, he], he, ?_, ?_, ?_, ?_⟩
  · unfold copyAssign
    split
    · rfl
    · rfl
  · intro hlt
    have hlt' : rhs.elems.length > a.cap := hlt
    unfold copyAssign
    rw [if_pos hlt']
  · intro hle
    have h' : ¬ rhs.elems.length > a.cap := by
      simp only [Size, Capacity] at hle; omega
    unfold copyAssign
    rw [if_neg h']
    rfl
  · intro hInv
    have h' : ¬ a.elems.length > a.cap := by
      unfold Inv at hInv; omega
    have he2 := copyAssign_elems a a
    have hcap : ((copyAssign a a).1).cap = a.cap := by
      unfold copyAssign; rw [if_neg h']
    exact vecExt he2 hcap

/-- Witness for C5: copy-and-swap branch, in-place branch, self-assignment. -/
theorem claim5_copy_assignment_witness :
    (copyAssign (⟨[1, 2], 2⟩ : Vector Int) ⟨[3, 4, 5], 3⟩).1 = copyOf ⟨[3, 4, 5], 3⟩ ∧
    Capacity (copyAssign (⟨[9], 5⟩ : Vector Int) ⟨[3, 4], 4⟩).1 = 5 ∧
    (copyAssign (⟨[1, 2], 2⟩ : Vector Int) ⟨[1, 2], 2⟩).1 = ⟨[1, 2], 2⟩ := by
  refine ⟨(claim5_copy_assignment ⟨[1, 2], 2⟩ ⟨[3, 4, 5], 3⟩).2.2.2.1 (by decide),
          (claim5_copy_assignment ⟨[9], 5⟩ ⟨[3, 4], 4⟩).2.2.2.2.1 (by decide),
          (claim5_copy_assignment (⟨[1, 2], 2⟩ : Vector Int) ⟨[1, 2], 2⟩).2.2.2.2.2
            (by decide)⟩

/-- C7: for a valid position `d < Size()`, `Erase` shrinks the size by one,
keeps the elements before `d` unchanged, shifts every later element one slot
toward `d` in order, and returns the offset `d`, which designates the element
now occupying the erased position, or `end()` (offset = new size) when the
last element was removed. -/
theorem claim7_erase (v : Vector α) (d : Nat) (h : d < Size v) :
    Size (Erase v d).1 = Size v - 1 ∧
    (∀ i, i < d → opIndex (Erase v d).1 i = opIndex v i) ∧
    (∀ i, d ≤ i → i + 1 < Size v → opIndex (Erase v d).1 i = opIndex v (i + 1)) ∧
    (Erase v d).2 = d ∧
    (d = Size v - 1 → (Erase v d).2 = Size (Erase v d).1) := by
  unfold Size at h
  have hlen : (v.elems.eraseIdx d).length = v.elems.length - 1 := by
    rw [List.length_eraseIdx]; simp [h]
  have htake : (v.elems.take d).length = d := by simp; omega
  refine ⟨hlen, ?_, ?_, rfl, ?_⟩
  · intro i hi
    unfold Erase opIndex
    rw [List.eraseIdx_eq_take_drop_succ]
    simp only [List.get?_eq_getElem?]
    rw [List.getElem?_append, if_pos (by omega), List.getElem?_take, if_pos hi]
  · intro i hdi hi
    unfold Erase opIndex Size at *
    rw [List.eraseIdx_eq_take_drop_succ]
    simp only [List.get?_eq_getElem?]
    rw [List.getElem?_append, if_neg (by omega), htake, List.getElem?_drop]
    congr 1
    omega
  · intro hd
    unfold Size at hd
    show d = (v.elems.eraseIdx d).length
    rw [hlen]
    omega

/-- Witness for C7 erasing position 1 of `[1, 2, 3]`. -/
theorem claim7_erase_witness :
    Size (Erase (⟨[1, 2, 3], 4⟩ : Vector Int) 1).1 = 2 ∧
    opIndex (Erase (⟨[1, 2, 3], 4⟩ : Vector Int) 1).1 0 = some 1 ∧
    opIndex (Erase (⟨[1, 2, 3], 4⟩ : Vector Int) 1).1 1 = some 3 ∧
    (Erase (⟨[1, 2, 3], 4⟩ : Vector Int) 1).2 = 1 := by
  have h := claim7_erase (⟨[1, 2, 3], 4⟩ : Vector Int) 1 (by decide)
  refine ⟨by rw [h.1]; decide, ?_, ?_, h.2.2.2.1⟩
  · rw [h.2.1 0 (by decide)]; decide
  · rw [h.2.2.1 1 (by decide) (by decide)]; decide

/-- C8: for every valid position `d ≤ Size()`, `Insert(pos, x)` immediately
followed by `Erase(pos)` restores the original size and element sequence
(capacity may have grown, which the claim does not constrain). -/
theorem claim8_insert_erase (v : Vector α) (d : Nat) (x : α) (h : d ≤ Size v) :
    (Erase (Insert v d x).1 d).1.elems = v.elems ∧
    Size (Erase (Insert v d x).1 d).1 = Size v := by
  have he : (Insert v d x).1.elems = v.elems.take d ++ x :: v.elems.drop d :=
    emplace_elems v d x
  have htake : (v.elems.take d).length = d := by
    unfold Size at h; simp; omega
  have key : (Erase (Insert v d x).1 d).1.elems = v.elems := by
    unfold Erase
    simp only []
    rw [he, List.eraseIdx_eq_take_drop_succ, List.take_left' htake]
    have hsplit : v.elems.take d ++ x :: v.elems.drop d
        = (v.elems.take d ++ [x]) ++ v.elems.drop d := by simp
    rw [hsplit, List.drop_left' (by simp [htake]), List.take_append_drop]
  exact ⟨key, by unfold Size; rw [key]⟩

/-- Witness for C8 inserting 9 at position 1 of the full vector `[1, 2]`
(which exercises the reallocating insertion path). -/
theorem claim8_insert_erase_witness :
    (Erase (Insert (⟨[1, 2], 2⟩ : Vector Int) 1 9).1 1).1.elems = [1, 2] ∧
    Size (Erase (Insert (⟨[1, 2], 2⟩ : Vector Int) 1 9).1 1).1 = 2 := by
  have h := claim8_insert_erase (⟨[1, 2], 2⟩ : Vector Int) 1 9 (by decide)
  exact ⟨h.1, by rw [h.2]; decide⟩

/-- Copy assignment only reads its source. -/
theorem copyAssign_snd (a rhs : Vector α) : (copyAssign a rhs).2 = rhs := by
  unfold copyAssign
  split
  · rfl
  · rfl

/-- Capacity after copy assignment: `rhs.size` on the copy-and-swap branch,
unchanged on the in-place branch. -/
theorem copyAssign_cap (a rhs : Vector α) :
    (copyAssign a rhs).1.cap
      = if rhs.elems.length > a.cap then rhs.elems.length else a.cap := by
  by_cases g : rhs.elems.length > a.cap <;> simp [copyAssign, copyOf, g]

/-- `Emplace` preserves the size/capacity invariant. -/
theorem emplace_inv (v : Vector α) (d : Nat) (x : α) (hv : Inv v) :
    Inv (Emplace v d x).1 := by
  unfold Inv at *
  unfold Emplace EmplaceWithReallocation EmplaceWithoutReallocation newCapOnRealloc
  by_cases h1 : v.elems.length = v.cap
  · simp only [h1, reduceIte]
    simp only [List.length_append, List.length_take, List.length_cons,
      List.length_drop]
    split <;> omega
  · simp only [h1, reduceIte]
    by_cases h2 : d = v.elems.length
    · simp only [h2, reduceIte]
      simp only [List.length_append, List.length_cons, List.length_nil]
      omega
    · simp only [h2, reduceIte]
      simp only [List.length_append, List.length_take, List.length_cons,
        List.length_drop]
      omega

/-- C9: every public operation — construction (default, sized, copy, move),
assignment (copy, move), `Swap`, `Reserve`, `Resize`, `PushBack`,
`EmplaceBack`, `Emplace`, `Insert`, `Erase` and `PopBack` — preserves the
invariant `Size() ≤ Capacity()`; that the live elements occupy exactly the
first `Size()` slots of the storage holds by construction in this embedding,
`elems` being the live prefix. -/
theorem claim9_invariants (v w : Vector α) (x x0 : α) (n d : Nat)
    (hv : Inv v) (hw : Inv w) :
    Inv (emptyVector α) ∧ Inv (sized x0 n) ∧ Inv (copyOf v) ∧
    Inv (moveFrom v).1 ∧ Inv (moveFrom v).2 ∧
    Inv (copyAssign v w).1 ∧ Inv (copyAssign v w).2 ∧
    Inv (moveAssign v w).1 ∧ Inv (moveAssign v w).2 ∧
    Inv (Swap v w).1 ∧ Inv (Swap v w).2 ∧
    Inv (Reserve v n) ∧ Inv (Resize v x0 n) ∧
    Inv (PushBack v x) ∧ Inv (EmplaceBack v x) ∧
    Inv (Emplace v d x).1 ∧ Inv (Insert v d x).1 ∧
    Inv (Erase v d).1 ∧ Inv (PopBack v) := by
  unfold Inv at hv hw
  refine ⟨by simp [Inv, emptyVector], by simp [Inv, sized], by simp [Inv, copyOf],
    hv, by simp [Inv, moveFrom], ?_,
    by unfold Inv; rw [copyAssign_snd]; exact hw,
    hw, by simp [Inv, moveAssign], hw, hv, ?_, ?_,
    emplace_inv v v.elems.length x hv, emplace_inv v v.elems.length x hv,
    emplace_inv v d x hv, emplace_inv v d x hv, ?_, ?_⟩
  · unfold Inv
    rw [copyAssign_elems, copyAssign_cap]
    split <;> omega
  · unfold Inv Reserve
    split
    · exact hv
    · show v.elems.length ≤ n
      omega
  · unfold Inv Resize Reserve
    by_cases h1 : v.elems.length = n
    · simp only [h1, reduceIte]; omega
    · simp only [h1, reduceIte]
      by_cases h2 : n < v.elems.length
      · simp only [h2, reduceIte, List.length_take]; omega
      · simp only [h2, reduceIte]
        by_cases h3 : n ≤ v.cap <;>
          simp only [h3, reduceIte, List.length_append, List.length_replicate] <;>
          omega
  · unfold Inv Erase
    simp only [List.length_eraseIdx]
    split <;> omega
  · unfold Inv PopBack
    simp only [List.length_dropLast]
    omega

/-- Witness for C9 at small concrete vectors. -/
theorem claim9_invariants_witness :
    Inv (PushBack (⟨[1], 2⟩ : Vector Int) 7) ∧
    Inv (Resize (⟨[1], 2⟩ : Vector Int) 0 4) := by
  have h := claim9_invariants (⟨[1], 2⟩ : Vector Int) ⟨[2, 3], 3⟩ 7 0 4 1
    (by decide) (by decide)
  obtain ⟨-, -, -, -, -, -, -, -, -, -, -, -, h13, h14, -⟩ := h
  exact ⟨h14, h13⟩

/-- A successful transfer produces as many elements as the source range. -/
theorem transferAll_length (tr : α → Option α) (l : List α) :
    ∀ l', transferAll tr l = some l' → l'.length = l.length := by
  induction l with
  | nil =>
    intro l' h
    unfold transferAll at h
    cases h
    rfl
  | cons x rest ih =>
    intro l' h
    unfold transferAll at h
    split at h
    · cases h
    · split at h
      · cases h
      · cases h
        simpa using ih _ (by assumption)

/-- Destroying a range further right leaves the head slot alone. -/
theorem destroyN_cons (a : Option α) (l : List (Option α)) (start n : Nat) :
    destroyN (a :: l) (start + 1) n = a :: destroyN l start n := by
  induction n generalizing a l start with
  | zero => rfl
  | succ m ih =>
    show destroyN (a :: l.set start none) (start + 1 + 1) m
      = a :: destroyN (l.set start none) (start + 1) m
    exact ih a (l.set start none) (start + 1)

/-- Destroying the first `ys.length` slots of `ys ++ rest` razes `ys`. -/
theorem destroyN_front (ys rest : List (Option α)) :
    destroyN (ys ++ rest) 0 ys.length = List.replicate ys.length none ++ rest := by
  induction ys with
  | nil => rfl
  | cons y ys ih =>
    show destroyN (none :: (ys ++ rest)) (0 + 1) ys.length = _
    rw [destroyN_cons, ih]
    rfl

/-- Constructing into a range further right leaves the head slot alone. -/
theorem placeRange_cons (xs : List α) (a : Option α) (l : List (Option α))
    (start : Nat) :
    placeRange (a :: l) (start + 1) xs = a :: placeRange l start xs := by
  induction xs generalizing a l start with
  | nil => rfl
  | cons x rest ih =>
    show placeRange (a :: l.set start (some x)) (start + 1 + 1) rest
      = a :: placeRange (l.set start (some x)) (start + 1) rest
    exact ih a (l.set start (some x)) (start + 1)

/-- Constructing `xs` into the first slots of `ys ++ rest` (with `ys` exactly
as long as `xs`) fills them with `xs`'s values. -/
theorem placeRange_front (xs : List α) :
    ∀ ys rest : List (Option α), ys.length = xs.length →
      placeRange (ys ++ rest) 0 xs = xs.map some ++ rest := by
  induction xs with
  | nil =>
    intro ys rest h
    cases ys with
    | nil => rfl
    | cons y yr => simp at h
  | cons x xr ih =>
    intro ys rest h
    cases ys with
    | nil => simp at h
    | cons y yr =>
      show placeRange (some x :: (yr ++ rest)) (0 + 1) xr = _
      rw [placeRange_cons, ih yr rest (by simpa using h)]
      rfl

/-- C2: when an element constructor throws during a reallocation-triggering
`Emplace` (`Size() == Capacity()`), the call propagates the failure with the
vector's size, capacity and element sequence exactly as before, and no
constructed element is left behind in the abandoned new buffer when it is
deallocated.  `tr` ranges over element types with a non-throwing move
(`tr = fun y => some y`) or a usable copy constructor (an arbitrary fallible
`tr`), the types the claim covers. -/
theorem claim2_realloc_exception_safety (v : Vector α) (d : Nat)
    (mk : Option α) (tr : α → Option α) (hd : d ≤ Size v)
    (hfull : Size v = Capacity v) :
    ((EmplaceWithReallocationRun v d mk tr).2.1 = none →
      (EmplaceWithReallocationRun v d mk tr).1 = v) ∧
    (∀ s ∈ (EmplaceWithReallocationRun v d mk tr).2.2, s = none) := by
  unfold Size at hd
  unfold Size Capacity at hfull
  have hdN : d < newCapOnRealloc v.elems.length := by
    unfold newCapOnRealloc
    split <;> omega
  unfold EmplaceWithReallocationRun
  cases mk with
  | none =>
    exact ⟨fun _ => rfl, fun s hs => List.eq_of_mem_replicate hs⟩
  | some x =>
    simp only []
    cases hfr : transferAll tr (v.elems.take d) with
    | none =>
      refine ⟨fun _ => rfl, fun s hs => ?_⟩
      have hbuf : destroyN
          ((List.replicate (newCapOnRealloc v.elems.length) none).set d (some x)) d 1
          = (List.replicate (newCapOnRealloc v.elems.length) none : List (Option α)) := by
        show ((List.replicate (newCapOnRealloc v.elems.length) none).set d (some x)).set
            d none = _
        rw [List.set_set, List.set_replicate_self]
      rw [hbuf] at hs
      exact List.eq_of_mem_replicate hs
    | some front =>
      have hfl : front.length = d := by
        have := transferAll_length tr (v.elems.take d) front hfr
        simpa [Nat.min_eq_left hd] using this
      have hset : (List.replicate (newCapOnRealloc v.elems.length)
            (none : Option α)).set d (some x)
          = List.replicate d none ++ some x ::
              List.replicate (newCapOnRealloc v.elems.length - (d + 1)) none := by
        rw [List.set_eq_take_cons_drop _ (by simpa using hdN)]
        simp [List.take_replicate, List.drop_replicate, Nat.min_eq_left (Nat.le_of_lt hdN)]
      have hplace : placeRange
          ((List.replicate (newCapOnRealloc v.elems.length)
            (none : Option α)).set d (some x)) 0 front
          = front.map some ++ some x ::
              List.replicate (newCapOnRealloc v.elems.length - (d + 1)) none := by
        rw [hset]
        exact placeRange_front front (List.replicate d none) _ (by simp [hfl])
      cases hbk : transferAll tr (v.elems.drop d) with
      | none =>
        refine ⟨fun _ => rfl, fun s hs => ?_⟩
        have hdn : destroyN (front.map some ++ some x ::
              List.replicate (newCapOnRealloc v.elems.length - (d + 1)) none) 0 (d + 1)
            = List.replicate (d + 1) none ++
              List.replicate (newCapOnRealloc v.elems.length - (d + 1)) none := by
          have hsplit : front.map some ++ some x ::
                List.replicate (newCapOnRealloc v.elems.length - (d + 1)) none
              = (front.map some ++ [some x]) ++
                List.replicate (newCapOnRealloc v.elems.length - (d + 1)) none := by
            simp
          have hlen : (front.map some ++ [some x]).length = d + 1 := by simp [hfl]
          rw [hsplit, ← hlen, destroyN_front, hlen]
        have hs' : s ∈ destroyN (placeRange ((List.replicate
            (newCapOnRealloc v.elems.length) none).set d (some x)) 0 front)
            0 (d + 1) := hs
        rw [hplace, hdn] at hs'
        rcases List.mem_append.1 hs' with hs1 | hs2
        · exact List.eq_of_mem_replicate hs1
        · exact List.eq_of_mem_replicate hs2
      | some back =>
        refine ⟨fun hnone => ?_, fun s hs => ?_⟩
        · exact absurd (hnone : (some d : Option Nat) = none) (by simp)
        · have hdn : destroyN (v.elems.map some ++
                List.replicate (v.cap - v.elems.length) none) 0 v.elems.length
              = List.replicate v.elems.length none ++
                List.replicate (v.cap - v.elems.length) none := by
            have hlen : (v.elems.map some).length = v.elems.length := by simp
            rw [← hlen, destroyN_front, hlen]
          have hs' : s ∈ destroyN (v.elems.map some ++
              List.replicate (v.cap - v.elems.length) none) 0 v.elems.length := hs
          rw [hdn] at hs'
          rcases List.mem_append.1 hs' with hs1 | hs2
          · exact List.eq_of_mem_replicate hs1
          · exact List.eq_of_mem_replicate hs2

/-- Witness for C2: the new element's constructor throws while inserting into
the full vector `[10, 20]`, and separately the copy of the suffix element
throws; both leave the vector unchanged and leak nothing. -/
theorem claim2_realloc_exception_safety_witness :
    (EmplaceWithReallocationRun (⟨[10, 20], 2⟩ : Vector Int) 1 none some).1
      = ⟨[10, 20], 2⟩ ∧
    (∀ s ∈ (EmplaceWithReallocationRun (⟨[10, 20], 2⟩ : Vector Int) 1 none
        some).2.2, s = none) ∧
    (EmplaceWithReallocationRun (⟨[10, 20], 2⟩ : Vector Int) 1 (some 5)
        (fun y => if y = 20 then none else some y)).1 = ⟨[10, 20], 2⟩ := by
  have h1 := claim2_realloc_exception_safety (⟨[10, 20], 2⟩ : Vector Int) 1
    none some (by decide) (by decide)
  have h2 := claim2_realloc_exception_safety (⟨[10, 20], 2⟩ : Vector Int) 1
    (some 5) (fun y => if y = 20 then none else some y) (by decide) (by decide)
  exact ⟨h1.1 (by decide), h1.2, h2.1 (by decide)⟩

/-- C10: `Swap` never fails (it is `noexcept` and modelled as a total
function) and exchanges the complete observable states of the two vectors;
swapping twice restores both. -/
theorem claim10_swap (a b : Vector α) :
    (Swap a b).1 = b ∧ (Swap a b).2 = a ∧
    Size (Swap a b).1 = Size b ∧ Capacity (Swap a b).1 = Capacity b ∧
    (Swap a b).1.elems = b.elems ∧
    Size (Swap a b).2 = Size a ∧ Capacity (Swap a b).2 = Capacity a ∧
    (Swap a b).2.elems = a.elems ∧
    Swap (Swap a b).1 (Swap a b).2 = (a, b) := by
  simp [Swap]

end CppVector
